import Mathlib

/-!
# Verification of the Gillespie stochastic-simulation engine

This development embeds the reaction-network compiler and stochastic
simulation engine of `initialiseReceptors.py`:

* `reactions_stoch` — the textual reaction parser producing substrate and
  product stoichiometry matrices;
* `calculate_hi` — the combinatorial factor h(n, m) built from a row of
  Pascal's triangle times a factorial;
* `hi_loop` / `calc_a` — the per-reaction propensity computation;
* `selectReaction` / `next_values` — the event sampler (waiting time and
  linear-scan reaction selection);
* `gillespie_core` / `gillespie_cv` / `gillespie_algo` — the discrete-event
  loop with trajectory bookkeeping and the time-weighted coefficient of
  variation statistics.

Modelling conventions: Python strings are embedded as `List Char` with a
faithful model `pySplit` of `str.split`; fallible operations (list indexing
that can raise `IndexError`, `int()` conversions that can raise
`ValueError`, division producing a float infinity) are modelled with
`Option` and `WithTop ℚ`; floating-point numbers are modelled as exact
rationals, and the transcendental `np.log` (which only feeds the time
accumulator and the returned waiting time) is a parameter `logf : ℚ → ℚ`
of the sampler and engine, as is `np.sqrt` (`sqrtf`) in the statistics.
-/

/-! ## Python string primitives -/

/-- Model of Python `str.split(sep)` for a non-empty separator
`c0 :: sep`: scans left to right, splitting at each non-overlapping
occurrence of the separator and keeping empty pieces.  The extra fuel
argument (instantiated with the string length, which bounds the number
of iterations) keeps the recursion structural; the fuel-exhausted branch
is unreachable from `pySplit`. -/
def pySplitGo (c0 : Char) (sep : List Char) : ℕ → List Char → List Char → List (List Char)
  | _, [], acc => [acc]
  | 0, s, acc => [acc ++ s]
  | fuel + 1, c :: rest, acc =>
    if (c0 :: sep).isPrefixOf (c :: rest) then
      acc :: pySplitGo c0 sep fuel (List.drop sep.length rest) []
    else
      pySplitGo c0 sep fuel rest (acc ++ [c])

/-- Model of Python `str.split(sep)`.  The source only ever splits on the
non-empty separators `","`, `"->"`, `"+"` and `"X"`; for an empty
separator (where Python raises `ValueError`) we return the string whole. -/
def pySplit (sep s : List Char) : List (List Char) :=
  match sep with
  | [] => [s]
  | c0 :: rest => pySplitGo c0 rest s.length s []

/-- Model of Python `str.isdigit()` (restricted to ASCII digits, the only
characters appearing in reaction strings): true iff the string is
non-empty and all characters are digits. -/
def pyIsdigit (s : List Char) : Bool :=
  !s.isEmpty && s.all Char.isDigit

/-- Decimal value of a digit string. -/
def digitsToNat (s : List Char) : ℕ :=
  s.foldl (fun acc c => acc * 10 + (c.toNat - 48)) 0

/-- Model of Python `int(s)` on the token strings reachable in the parser:
succeeds exactly on non-empty all-digit strings (other forms Python would
accept, such as signs or surrounding whitespace, never occur in the
split-off tokens); `none` models a raised `ValueError`. -/
def pyInt? (s : List Char) : Option ℕ :=
  if pyIsdigit s then some (digitsToNat s) else none

/-! ## Reaction parser (`reactions_stoch`, source lines 50–129) -/

/-- One term of a reaction side, lines 83–93 of the source: split on
`"X"`; the coefficient is `int(parts[0])` when that token is all digits
and `1` otherwise; only a split of length exactly 2 yields a
`[number, species]` pair (so terms such as `"0"` or an empty string are
silently skipped, modelled by `some none`); `int(parts[1])` on a
non-numeric species index raises `ValueError`, modelled by `none`. -/
def parseTerm (j : List Char) : Option (Option (ℕ × ℕ)) :=
  match pySplit ['X'] j with
  | [p0, p1] =>
    match pyInt? p1 with
    | none => none
    | some idx => some (some ((pyInt? p0).getD 1, idx))
  | _ => some none

/-- One side of a reaction: split on `"+"`, parse each term, keep the
successfully parsed `[number, species]` pairs in order. -/
def parseSide (s : List Char) : Option (List (ℕ × ℕ)) :=
  ((pySplit ['+'] s).mapM parseTerm).map (fun terms => terms.reduceOption)

/-- Split one reaction chunk on `"->"`, lines 70–73: the code uses
`s_p[0]` and `s_p[1]`, so a chunk without `"->"` raises `IndexError`
(`none`), and any pieces after the second are silently ignored. -/
def splitReaction (c : List Char) : Option (List Char × List Char) :=
  match pySplit ['-', '>'] c with
  | s :: p :: _ => some (s, p)
  | _ => none

/-- Largest species index appearing in a list of parsed sides
(`total_number_species` in the source, starting from 0). -/
def maxSpecies (l : List (List (ℕ × ℕ))) : ℕ :=
  (l.flatten.map Prod.snd).foldr max 0

/-- Model of the numpy row assignment `row[idx-1] = v` for a 1-based
species index: Python wraps the index `-1` (from `idx = 0`) to the last
column, and raises `IndexError` (`none`) when the row is empty or the
index is out of range. -/
def npSet (row : List ℤ) (idx : ℕ) (v : ℤ) : Option (List ℤ) :=
  if idx = 0 then
    if row.length = 0 then none else some (row.set (row.length - 1) v)
  else if idx - 1 < row.length then some (row.set (idx - 1) v) else none

/-- Fill one matrix row, lines 122–128: starting from a zero row of
`cols` columns, write `sign * coefficient` at column `index - 1` for each
parsed term. -/
def fillRow (cols : ℕ) (sign : ℤ) (terms : List (ℕ × ℕ)) : Option (List ℤ) :=
  terms.foldlM (fun row t => npSet row t.2 (sign * (t.1 : ℤ))) (List.replicate cols 0)

/-- Fill the stoichiometry matrix: the source allocates
`np.zeros((len(one_reaction), total_number_species))` and then fills row
`r` from the `r`-th *non-empty* parsed side list, leaving the remaining
rows zero. -/
def fillMat (nRows cols : ℕ) (sign : ℤ) (nr : List (List (ℕ × ℕ))) : Option (List (List ℤ)) :=
  (List.range nRows).mapM (fun r =>
    match nr.get? r with
    | some terms => fillRow cols sign terms
    | none => some (List.replicate cols 0))

/-- The reaction parser `reactions_stoch` (source lines 50–129): split
the input on `","` into reactions, each on `"->"` into substrate and
product side, parse the sides, size both matrices by the number of
reaction chunks times the largest species index seen anywhere, and fill
substrate entries with `-coefficient` and product entries with
`+coefficient`.  Note that only *non-empty* parsed side lists are kept
(`if len(sub_one_reaction) >= 1` in the source) before rows are filled
by position. -/
def reactions_stoch (reactions : List Char) : Option (List (List ℤ) × List (List ℤ)) :=
  ((pySplit [','] reactions).mapM splitReaction).bind (fun pairs =>
    (pairs.mapM (fun p => parseSide p.1)).bind (fun subTerms =>
      (pairs.mapM (fun p => parseSide p.2)).bind (fun prodTerms =>
        (fillMat (pySplit [','] reactions).length
            (max (maxSpecies subTerms) (maxSpecies prodTerms)) (-1)
            (subTerms.filter (fun l => !l.isEmpty))).bind (fun sub =>
          (fillMat (pySplit [','] reactions).length
              (max (maxSpecies subTerms) (maxSpecies prodTerms)) 1
              (prodTerms.filter (fun l => !l.isEmpty))).map (fun prod => (sub, prod))))))

/-! ## The combinatorial factor `calculate_hi` (source lines 34–48) -/

/-- The inner `while j > 0: b[j] += b[j-1]; j -= 1` loop of
`calculate_hi`, updating positions `j, j-1, …, 1` in place (downwards, so
each update reads the not-yet-updated value at `j-1`). -/
def pascalInner (b : List ℕ) : ℕ → List ℕ
  | 0 => b
  | j + 1 => pascalInner (b.set (j + 1) (b.getD (j + 1) 0 + b.getD j 0)) j

/-- The full Pascal-row construction of `calculate_hi`:
`b = [0]*(n+1); b[0] = 1; for i in range(1, n+1): b[i] = 1; <inner loop>`. -/
def pascalRow (n : ℕ) : List ℕ :=
  (List.range n).foldl (fun b k => pascalInner (b.set (k + 1) 1) k)
    ((List.replicate (n + 1) 0).set 0 1)

/-- `calculate_hi(n, m)` (source lines 34–48): the number of distinct
combinations of `m` out of `n` molecules, computed as `b[m] *
factorial(m)` over the Pascal row `b` of length `n + 1`.  The list access
`b[m]` raises `IndexError` when `m > n`, modelled by `none`. -/
def calculate_hi (n m : ℕ) : Option ℕ :=
  ((pascalRow n).get? m).map (fun c => c * Nat.factorial m)

/-! ## Event sampler (`next_values`, source lines 17–32) -/

/-- The reaction-selection loop of `next_values`:
`mu = 0; N = r2*a0 - a[mu]; while N > 0: mu += 1; N = N - a[mu]`.
`selectReaction d a` receives the initial deficit `d = r2 * a0`; running
past the end of the propensity list raises `IndexError` (`none`). -/
def selectReaction (d : ℚ) : List ℚ → Option ℕ
  | [] => none
  | x :: xs => if d - x ≤ 0 then some 0 else (selectReaction (d - x) xs).map (· + 1)

/-- `next_values` (source lines 17–32): the waiting time
`(1/a0) * log(1/r1)` and the selected reaction index.  `logf` models the
floating-point `np.log`.  When `a0 = 0` the float division `1/a0` yields
`inf` and (since `log(1/r1) > 0` for the uniform draws `r1 ∈ (0,1)`
produced by the engine) so does the waiting time, modelled by `⊤`. -/
def next_values (logf : ℚ → ℚ) (a0 : ℚ) (a : List ℚ) (r1 r2 : ℚ) :
    Option (WithTop ℚ × ℕ) :=
  (selectReaction (r2 * a0) a).map
    (fun mu => (if a0 = 0 then (⊤ : WithTop ℚ) else ((1 / a0) * logf (1 / r1) : ℚ), mu))

/-- Partial sum `a[0] + … + a[k]` of a propensity list. -/
def partialSum (a : List ℚ) (k : ℕ) : ℚ :=
  (a.take (k + 1)).sum

/-! ## Propensity computation (source lines 184–204) -/

/-- The inner propensity loop over species columns `j` for one reaction
row (source lines 187–200): skip columns with zero substrate entry; a
required species with `current_species[j] <= 0` sets `hi = 0` (and the
scan continues); otherwise multiply the accumulator by
`calculate_hi(int(current_species[j]), abs(sub_stoch[i,j]))`.  Reading a
missing species entry, or `calculate_hi` with more molecules required
than present, raises `IndexError` (`none`). -/
def hi_loop : List ℤ → List ℤ → ℕ → Option ℕ
  | [], _, acc => some acc
  | s :: srest, species, acc =>
    if s = 0 then hi_loop srest species.tail acc
    else
      match species.head? with
      | none => none
      | some n =>
        if n ≤ 0 then hi_loop srest species.tail 0
        else
          match calculate_hi n.toNat s.natAbs with
          | none => none
          | some h => hi_loop srest species.tail (acc * h)

/-- The propensity vector `a` (source lines 184–202): for each reaction
`i`, `a[i] = hi * rates[i]`.  A missing rate entry raises `IndexError`
(`none`). -/
def calc_a : List (List ℤ) → List ℚ → List ℤ → Option (List ℚ)
  | [], _, _ => some []
  | row :: rows, rates, species =>
    match hi_loop row species 1, rates.head? with
    | some h, some r =>
      match calc_a rows rates.tail species with
      | some rest => some (((h : ℚ) * r) :: rest)
      | none => none
    | _, _ => none

/-! ## Simulation engine (`gillespie_algo`, source lines 135–244) -/

/-- The mutable state of the simulation loop: current time and species
counts, the number `n` of fired events (`n_counter`), and the recording
arrays (`store_time`, `store_number_molecules`, `store_time_difference`;
the last is stored per step, the per-synapse copies of the source being
identical). -/
structure SimState where
  t : WithTop ℚ
  species : List ℤ
  n : ℕ
  times : List (WithTop ℚ)
  mols : List (List ℤ)
  dts : List (WithTop ℚ)
deriving DecidableEq

/-- `current_species += np.transpose(stoch[next_r,:])`: numpy elementwise
addition, a broadcast error (`none`) when the lengths differ. -/
def addRows (xs ys : List ℤ) : Option (List ℤ) :=
  if xs.length = ys.length then some (List.zipWith (· + ·) xs ys) else none

/-- `stoch = sub_stoch + prod_stoch` (source line 161): numpy matrix
addition, a broadcast error (`none`) on shape mismatch. -/
def matAdd (A B : List (List ℤ)) : Option (List (List ℤ)) :=
  if A.length = B.length then (A.zip B).mapM (fun p => addRows p.1 p.2) else none

/-- The loop guard `(current_time < tmax) and (n_counter < n_max-1)`
(source line 178).  Note natural subtraction agrees with Python here:
for `n_max = 0` both make the second conjunct false. -/
def loopGuard (tmax : ℚ) (n_max : ℕ) (st : SimState) : Bool :=
  decide (st.t < (tmax : WithTop ℚ)) && decide (st.n < n_max - 1)

/-- One iteration of the simulation loop (source lines 178–226): compute
the propensities and their total, sample the waiting time and reaction
via `next_values` with the step's pre-drawn random pair, advance the
time, apply the combined stoichiometry row of the chosen reaction to the
species counts, and append the new time, state and waiting time to the
recording arrays. -/
def gillespieStep (logf : ℚ → ℚ) (sub stoch : List (List ℤ)) (rates : List ℚ)
    (r1s r2s : ℕ → ℚ) (st : SimState) : Option SimState :=
  (calc_a sub rates st.species).bind (fun a =>
    (next_values logf a.sum a (r1s st.n) (r2s st.n)).bind (fun dtmu =>
      (stoch.get? dtmu.2).bind (fun row =>
        (addRows st.species row).map (fun species =>
          ⟨st.t + dtmu.1, species, st.n + 1, st.times ++ [st.t + dtmu.1],
            st.mols ++ [species], st.dts ++ [dtmu.1]⟩))))

/-- The simulation loop, driven by a fuel parameter.  The top-level call
passes fuel `n_max`; since the guard enforces `n < n_max - 1` and each
iteration increments `n`, the fuel is never exhausted while the guard
holds, so the `none` in the fuel-0-with-guard branch is unreachable from
`gillespie_core` and the embedded loop terminates like the source's. -/
def gillespieLoop (logf : ℚ → ℚ) (sub stoch : List (List ℤ)) (rates : List ℚ)
    (tmax : ℚ) (n_max : ℕ) (r1s r2s : ℕ → ℚ) : ℕ → SimState → Option SimState
  | 0, st => if loopGuard tmax n_max st then none else some st
  | f + 1, st =>
    if loopGuard tmax n_max st then
      (gillespieStep logf sub stoch rates r1s r2s st).bind
        (gillespieLoop logf sub stoch rates tmax n_max r1s r2s f)
    else some st

/-- The truncated output of a run: the recording arrays sliced to
`[:n_counter]` (source lines 228–231), the final `current_time` and the
step count. -/
structure CoreResult where
  times : List (WithTop ℚ)
  mols : List (List ℤ)
  dts : List (WithTop ℚ)
  finalTime : WithTop ℚ
  steps : ℕ
deriving DecidableEq

/-- The simulation engine without the statistics pass (source lines
152–231): initialise the state with time 0 and the given counts, record
them at index 0 (for `n_max = 0` the pre-allocated arrays are empty and
this very write raises `IndexError`, modelled by `none`), run the loop,
and truncate the three recording arrays to the step count. -/
def gillespie_core (logf : ℚ → ℚ) (rates : List ℚ) (sub prod : List (List ℤ))
    (tmax : ℚ) (n_max : ℕ) (r1s r2s : ℕ → ℚ) (init : List ℤ) : Option CoreResult :=
  if n_max = 0 then none
  else
    (matAdd sub prod).bind (fun stoch =>
      (gillespieLoop logf sub stoch rates tmax n_max r1s r2s n_max
          ⟨((0 : ℚ) : WithTop ℚ), init, 0, [((0 : ℚ) : WithTop ℚ)], [init], []⟩).map
        (fun final =>
          ⟨final.times.take final.n, final.mols.take final.n, final.dts.take final.n,
            final.t, final.n⟩))

/-! ## Trajectory statistics (source lines 233–244) -/

/-- Column `c` of the truncated molecule-count record, as rationals. -/
def colVals (mols : List (List ℤ)) (c : ℕ) : List ℚ :=
  mols.map (fun row => ((row.getD c 0 : ℤ) : ℚ))

/-- `average = sum(store_time_difference*mol_cv) / current_time` for one
tracked column (source lines 238–239). -/
def weightedMean (dts vals : List ℚ) (T : ℚ) : ℚ :=
  (List.zipWith (· * ·) dts vals).sum / T

/-- One entry of `coefficient_variation` (source lines 241–242):
`sqrt(sum((mol_cv - average)**2 * (store_time_difference/current_time))) * 100 / average`,
with `sqrtf` modelling `np.sqrt`. -/
def cvCol (sqrtf : ℚ → ℚ) (dts vals : List ℚ) (T : ℚ) : ℚ :=
  sqrtf ((List.zipWith (fun v dt => (v - weightedMean dts vals T) ^ 2 * (dt / T)) vals dts).sum)
    * 100 / weightedMean dts vals T

/-- numpy broadcasting of two column counts, as applied to
`store_time_difference*mol_cv` at source lines 238–242: equal widths
broadcast to themselves, a width of 1 stretches to the other width, and
any other pair raises `ValueError` (`none`).  A width of 0 is an
ordinary width here: 0 against 1 broadcasts to 0, while 0 against
`k ≥ 2` is an error. -/
def broadcastWidth (a b : ℕ) : Option ℕ :=
  if a = b then some a else if a = 1 then some b else if b = 1 then some a else none

/-- The statistics pass (source lines 233–242).  `store_time_difference`
has `number_synapses = int((len(init)-1)/2)` columns (lines 164, 176),
all equal within each row because line 211 adds the scalar waiting time
to a zero row; `mol_cv` keeps the first four columns of the molecule
record (`[:, :4]`, which numpy clamps to the available `width` columns,
line 236).  Multiplying the two arrays broadcasts their column counts:
incompatible counts raise `ValueError`, modelled as `none`.  Each
column `c` of the broadcast result carries the per-column statistic of
molecule column `c` — of molecule column 0 throughout when `mol_cv` has
a single column that is stretched.  A run that recorded no steps makes
the builtin `sum` over the empty row iterator return the plain int 0 and
the division by `current_time = 0` fail, so that degenerate case is also
`none`. -/
def gillespie_cv (sqrtf : ℚ → ℚ) (nSyn width : ℕ) (dts : List ℚ)
    (mols : List (List ℤ)) (T : ℚ) : Option (List ℚ) :=
  (broadcastWidth nSyn (min 4 width)).bind (fun b =>
    if dts.isEmpty then none
    else some ((List.range b).map (fun c =>
      cvCol sqrtf dts (colVals mols (if min 4 width = 1 then 0 else c)) T)))

/-- Extract a finite value from a modelled float, `none` for `inf`. -/
def untopQ : WithTop ℚ → Option ℚ
  | ⊤ => none
  | (q : ℚ) => some q

/-- The full `gillespie_algo` (source lines 135–244): the truncated
trajectory plus the coefficient-of-variation vector.  `none` models every
failing statistics pass: an infinite final time or stored waiting time (a
stalled run) makes the float statistics NaN, incompatible column counts
raise `ValueError`, and a zero-step run divides by `current_time = 0`.
The synapse count `int((len(init)-1)/2)` of source line 164 equals
truncated natural division for every list length, including 0 where
Python's `int(-0.5)` is 0. -/
def gillespie_algo (logf sqrtf : ℚ → ℚ) (rates : List ℚ) (sub prod : List (List ℤ))
    (tmax : ℚ) (n_max : ℕ) (r1s r2s : ℕ → ℚ) (init : List ℤ) :
    Option (List (WithTop ℚ) × List (List ℤ) × List ℚ) :=
  (gillespie_core logf rates sub prod tmax n_max r1s r2s init).bind (fun res =>
    (res.dts.mapM untopQ).bind (fun dtsQ =>
      (untopQ res.finalTime).bind (fun T =>
        (gillespie_cv sqrtf ((init.length - 1) / 2) (sub.headD []).length dtsQ
            res.mols T).map (fun cv => (res.times, res.mols, cv)))))

/-! ## Correctness of the Pascal-row construction -/

theorem getD_set_ne (b : List ℕ) (i k v : ℕ) (h : i ≠ k) :
    (b.set i v).getD k 0 = b.getD k 0 := by
  simp [List.getD_eq_getD_get?, List.getElem?_set_ne h]

theorem getD_set_self (b : List ℕ) (i v : ℕ) (h : i < b.length) :
    (b.set i v).getD i 0 = v := by
  simp [List.getD_eq_getD_get?, List.getElem?_set_eq_of_lt _ h]

theorem pascalInner_length : ∀ (j : ℕ) (b : List ℕ), (pascalInner b j).length = b.length
  | 0, _ => rfl
  | j + 1, b => by
    rw [pascalInner, pascalInner_length j]
    simp

theorem pascalInner_getD : ∀ (j : ℕ) (b : List ℕ), j < b.length → ∀ k : ℕ,
    (pascalInner b j).getD k 0 =
      if 1 ≤ k ∧ k ≤ j then b.getD k 0 + b.getD (k - 1) 0 else b.getD k 0
  | 0, b, _, k => by
    rw [pascalInner, if_neg (by omega)]
  | j + 1, b, hj, k => by
    rw [pascalInner]
    rw [pascalInner_getD j _ (by simp; omega) k]
    rcases Nat.lt_or_ge k 1 with hk0 | hk1
    · rw [if_neg (by omega), if_neg (by omega), getD_set_ne _ _ _ _ (by omega)]
    · rcases Nat.lt_or_ge j k with hjk | hkj
      · rcases Nat.lt_or_ge (j + 1) k with hjk1 | hkj1
        · rw [if_neg (by omega), if_neg (by omega), getD_set_ne _ _ _ _ (by omega)]
        · have hkeq : k = j + 1 := by omega
          subst hkeq
          rw [if_neg (by omega), if_pos (by omega), getD_set_self _ _ _ hj]
          simp
      · rw [if_pos (by omega), if_pos (by omega),
          getD_set_ne _ _ _ _ (by omega), getD_set_ne _ _ _ _ (by omega)]

theorem mapRange_getD (n i k : ℕ) :
    ((List.range (n + 1)).map (fun j => Nat.choose i j)).getD k 0 =
      if k < n + 1 then Nat.choose i k else 0 := by
  rcases Nat.lt_or_ge k (n + 1) with h | h
  · rw [if_pos h, List.getD_eq_getElem _ _ (by simp [h]), List.getElem_map]
    simp
  · rw [if_neg (by omega), List.getD_eq_default _ _ (by simp [h])]

theorem pascalRow_eq (n : ℕ) :
    pascalRow n = (List.range (n + 1)).map (fun k => Nat.choose n k) := by
  suffices h : ∀ m : ℕ, m ≤ n →
      (List.range m).foldl (fun b k => pascalInner (b.set (k + 1) 1) k)
        ((List.replicate (n + 1) 0).set 0 1) =
      (List.range (n + 1)).map (fun k => Nat.choose m k) by
    exact h n le_rfl
  intro m hm
  induction m with
  | zero =>
    simp only [List.range_zero, List.foldl_nil]
    apply List.ext_getElem (by simp)
    intro k h1 h2
    simp only [List.length_set, List.length_replicate] at h1
    rw [← List.getD_eq_getElem _ 0, ← List.getD_eq_getElem _ 0, mapRange_getD, if_pos h1]
    rcases Nat.eq_zero_or_pos k with hk | hk
    · subst hk
      rw [getD_set_self _ _ _ (by simp)]
      simp
    · rw [getD_set_ne _ _ _ _ (by omega), Nat.choose_eq_zero_of_lt hk]
      simp [List.getD_eq_getD_get?, List.getElem?_replicate, h1]
  | succ m ih =>
    rw [List.range_succ, List.foldl_append, ih (by omega)]
    apply List.ext_getElem (by simp [pascalInner_length])
    intro k h1 h2
    simp only [List.foldl_cons, List.foldl_nil, pascalInner_length, List.length_set,
      List.length_map, List.length_range] at h1
    rw [← List.getD_eq_getElem _ 0, ← List.getD_eq_getElem _ 0]
    simp only [List.foldl_cons, List.foldl_nil]
    rw [pascalInner_getD m _ (by simp; omega) k]
    rw [mapRange_getD, if_pos h1]
    rcases Nat.lt_or_ge k 1 with hk0 | hk1
    · have hk : k = 0 := by omega
      subst hk
      rw [if_neg (by omega), getD_set_ne _ _ _ _ (by omega), mapRange_getD, if_pos h1]
      simp
    · rcases Nat.lt_or_ge m k with hmk | hkm
      · rcases Nat.lt_or_ge (m + 1) k with hmk1 | hkm1
        · rw [if_neg (by omega), getD_set_ne _ _ _ _ (by omega), mapRange_getD, if_pos h1]
          rw [Nat.choose_eq_zero_of_lt (by omega), Nat.choose_eq_zero_of_lt (by omega)]
        · have hkeq : k = m + 1 := by omega
          subst hkeq
          rw [if_neg (by omega), getD_set_self _ _ _ (by simp; omega)]
          simp
      · rw [if_pos (by omega), getD_set_ne _ _ _ _ (by omega),
          getD_set_ne _ _ _ _ (by omega), mapRange_getD, mapRange_getD,
          if_pos h1, if_pos (by omega)]
        obtain ⟨k', rfl⟩ : ∃ k', k = k' + 1 := ⟨k - 1, by omega⟩
        rw [Nat.choose_succ_succ m k']
        simp [Nat.add_comm]

/-- The behaviour of `calculate_hi`: the value `C(n, m) * m!` when
`m ≤ n`, and an `IndexError` (`none`) when the reaction requires more
molecules than are present (`m > n`), because the Pascal row has only
`n + 1` entries. -/
theorem calculate_hi_eq (n m : ℕ) :
    calculate_hi n m = if m ≤ n then some (Nat.choose n m * Nat.factorial m) else none := by
  rw [calculate_hi, pascalRow_eq]
  rcases Nat.lt_or_ge n m with h | h
  · rw [if_neg (by omega)]
    rw [List.get?_eq_none.mpr (by simp; omega)]
    rfl
  · rw [if_pos h, List.get?_map, List.get?_range (by omega)]
    rfl

/-! ## The specified propensity formula (transcribed from the spec) -/

/-- The spec's combinatorial factor: `h(n, m) = C(n, m) × m!`. -/
def h_spec (n m : ℕ) : ℕ :=
  Nat.choose n m * Nat.factorial m

/-- The spec's propensity product: over exactly those species with a
nonzero substrate entry, the factor `h(n_s, m_{r,s})` with `n_s` the
current count and `m_{r,s}` the absolute value of the substrate entry. -/
def h_prod (subRow species : List ℤ) : ℕ :=
  ((subRow.zip species).map (fun p => if p.1 = 0 then 1 else h_spec p.2.toNat p.1.natAbs)).prod

theorem hi_loop_eq : ∀ (subRow species : List ℤ) (acc : ℕ),
    subRow.length ≤ species.length →
    (∀ n ∈ species, 0 ≤ n) →
    (∀ p ∈ subRow.zip species, p.1 ≠ 0 → p.2 = 0 ∨ (p.1.natAbs : ℤ) ≤ p.2) →
    hi_loop subRow species acc = some (acc * h_prod subRow species)
  | [], species, acc, _, _, _ => by simp [hi_loop, h_prod]
  | s :: srest, species, acc, hlen, hnn, hsuf => by
    match species with
    | [] => simp at hlen
    | n :: nrest =>
      rw [hi_loop]
      by_cases hs : s = 0
      · rw [if_pos hs]
        subst hs
        simp only [List.tail_cons]
        rw [hi_loop_eq srest nrest acc (by simpa using hlen)
          (fun x hx => hnn x (List.mem_cons_of_mem _ hx))
          (fun p hp => hsuf p (by simp [List.zip_cons_cons, hp]))]
        simp [h_prod, List.zip_cons_cons]
      · rw [if_neg hs]
        simp only [List.head?_cons, List.tail_cons]
        have hn0 : 0 ≤ n := hnn n (by simp)
        by_cases hn : n ≤ 0
        · rw [if_pos hn]
          rw [hi_loop_eq srest nrest 0 (by simpa using hlen)
            (fun x hx => hnn x (List.mem_cons_of_mem _ hx))
            (fun p hp => hsuf p (by simp [List.zip_cons_cons, hp]))]
          have hneq : n = 0 := le_antisymm hn hn0
          subst hneq
          have hm : s.natAbs ≠ 0 := Int.natAbs_ne_zero.mpr hs
          simp [h_prod, List.zip_cons_cons, if_neg hs, h_spec,
            Nat.choose_eq_zero_of_lt (by omega : (0:ℕ) < s.natAbs)]
        · rw [if_neg hn]
          have hsn : (s.natAbs : ℤ) ≤ n := by
            rcases hsuf (s, n) (by simp [List.zip_cons_cons]) hs with h0 | h1
            · omega
            · exact h1
          have hmn : s.natAbs ≤ n.toNat := by omega
          rw [calculate_hi_eq, if_pos hmn]
          show hi_loop srest nrest (acc * (Nat.choose n.toNat s.natAbs * Nat.factorial s.natAbs)) =
            some (acc * h_prod (s :: srest) (n :: nrest))
          rw [hi_loop_eq srest nrest (acc * (Nat.choose n.toNat s.natAbs * Nat.factorial s.natAbs))
            (by simpa using hlen)
            (fun x hx => hnn x (List.mem_cons_of_mem _ hx))
            (fun p hp => hsuf p (by simp [List.zip_cons_cons, hp]))]
          simp only [h_prod, List.zip_cons_cons, List.map_cons, List.prod_cons, if_neg hs]
          rw [h_spec, Nat.mul_assoc]

/-- Row `i` of the propensity vector is `hi * rates[i]` with `hi`
computed by `hi_loop` on substrate row `i`. -/
theorem calc_a_get? : ∀ (sub : List (List ℤ)) (rates : List ℚ) (species : List ℤ)
    (a : List ℚ) (i : ℕ) (subRow : List ℤ) (rate : ℚ),
    calc_a sub rates species = some a →
    sub.get? i = some subRow →
    rates.get? i = some rate →
    ∃ h : ℕ, hi_loop subRow species 1 = some h ∧ a.get? i = some ((h : ℚ) * rate)
  | [], _, _, _, i, _, _, _, hrow, _ => by simp at hrow
  | row :: rows, rates, species, a, i, subRow, rate, ha, hrow, hrate => by
    match rates with
    | [] => simp at hrate
    | r0 :: rt =>
      rw [calc_a] at ha
      cases hh0 : hi_loop row species 1 with
      | none => rw [hh0] at ha; simp at ha
      | some h0 =>
        rw [hh0] at ha
        simp only [List.head?_cons, List.tail_cons] at ha
        cases hrest : calc_a rows rt species with
        | none => rw [hrest] at ha; simp at ha
        | some rest =>
          rw [hrest] at ha
          simp only [Option.some.injEq] at ha
          subst ha
          match i with
          | 0 =>
            have h1 : row = subRow := by simpa using hrow
            have h2 : r0 = rate := by simpa using hrate
            subst h1
            subst h2
            exact ⟨h0, hh0, by simp⟩
          | i + 1 =>
            obtain ⟨h, hh, hv⟩ := calc_a_get? rows rt species rest i subRow rate hrest
              (by simpa using hrow) (by simpa using hrate)
            exact ⟨h, hh, by simpa using hv⟩

/-- **C1** (amended).  For every state vector of non-negative species
counts in which each species with a nonzero substrate entry for reaction
`r` either has count 0 or holds at least as many molecules as the
reaction consumes, the propensity computed for reaction `r` equals
`rate_r` times the product, over exactly those species with a nonzero
substrate entry, of `h(n_s, m_{r,s})` with `h(n, m) = C(n, m) * m!`;
moreover `h(5, 2) = 20` and `h(n, 0) = 1` for every `n`.  (Without the
sufficiency proviso the computation can instead raise an `IndexError`,
see `propensity_undefined_on_partial_count`.) -/
theorem propensity_eq_rate_mul_h_prod
    (sub : List (List ℤ)) (rates : List ℚ) (species : List ℤ) (a : List ℚ)
    (r : ℕ) (subRow : List ℤ) (rate : ℚ)
    (ha : calc_a sub rates species = some a)
    (hrow : sub.get? r = some subRow)
    (hrate : rates.get? r = some rate)
    (hlen : subRow.length ≤ species.length)
    (hnn : ∀ n ∈ species, 0 ≤ n)
    (hsuf : ∀ p ∈ subRow.zip species, p.1 ≠ 0 → p.2 = 0 ∨ (p.1.natAbs : ℤ) ≤ p.2) :
    a.get? r = some (rate * (h_prod subRow species : ℚ))
      ∧ h_spec 5 2 = 20 ∧ ∀ n : ℕ, h_spec n 0 = 1 := by
  refine ⟨?_, by decide, fun n => by simp [h_spec]⟩
  obtain ⟨h, hh, hv⟩ := calc_a_get? sub rates species a r subRow rate ha hrow hrate
  rw [hi_loop_eq subRow species 1 hlen hnn hsuf, Nat.one_mul] at hh
  obtain rfl : h_prod subRow species = h := by simpa using hh
  rw [hv, mul_comm]

/-- Witness for `propensity_eq_rate_mul_h_prod` at the concrete input
`sub = [[-1]]`, `rates = [3]`, `species = [1]`. -/
theorem propensity_eq_rate_mul_h_prod_witness :
    ([(3 : ℚ)] : List ℚ).get? 0 = some ((3 : ℚ) * (h_prod [-1] [1] : ℚ)) ∧ h_spec 5 2 = 20 :=
  ⟨(propensity_eq_rate_mul_h_prod [[-1]] [3] [1] [3] 0 [-1] 3
      (by simp [calc_a, hi_loop, calculate_hi_eq])
      rfl rfl (by norm_num) (by decide) (by decide)).1,
   (propensity_eq_rate_mul_h_prod [[-1]] [3] [1] [3] 0 [-1] 3
      (by simp [calc_a, hi_loop, calculate_hi_eq])
      rfl rfl (by norm_num) (by decide) (by decide)).2.1⟩

/-- **C1** (counterexample to the claim as stated).  With one species
holding 1 molecule and a reaction consuming 2 of it (a non-negative state
vector), the propensity computation raises an `IndexError` instead of
returning the value demanded by the claim, which would be
`rate * h(1, 2) = 5 * 0 = 0`. -/
theorem propensity_undefined_on_partial_count :
    calc_a [[-2]] [5] [1] = none ∧ (5 : ℚ) * (h_prod [-2] [1] : ℚ) = 0 := by
  constructor
  · simp [calc_a, hi_loop, calculate_hi_eq]
  · have h0 : h_prod [-2] [1] = 0 := by decide
    rw [h0]
    norm_num

/-- **C5**.  The claim (and the spec's error-handling contract) say the
propensity computation never fails and forces a zero propensity whenever
a species lacks the molecules a reaction consumes.  The code does force
`hi = 0` for counts `≤ 0`, but for `0 < count < required` the call
`calculate_hi(count, required)` indexes `b[required]` in a Pascal row of
length `count + 1` and raises `IndexError`: here `calculate_hi 2 3 =
none` (and the whole propensity loop fails), although the documented
combinatorial value `C(2, 3) * 3!` is 0. -/
theorem calculate_hi_indexerror_on_insufficient :
    hi_loop [(-3 : ℤ)] [(2 : ℤ)] 1 = none ∧ calculate_hi 2 3 = none ∧
      Nat.choose 2 3 * Nat.factorial 3 = 0 := by
  refine ⟨?_, ?_, by decide⟩
  · simp [hi_loop, calculate_hi_eq]
  · rw [calculate_hi_eq]
    simp

/-! ## Event-sampler correctness (claim C2) -/

theorem partialSum_zero (x : ℚ) (xs : List ℚ) : partialSum (x :: xs) 0 = x := by
  simp [partialSum]

theorem partialSum_cons (x : ℚ) (xs : List ℚ) (k : ℕ) :
    partialSum (x :: xs) (k + 1) = x + partialSum xs k := by
  simp [partialSum, List.take_succ_cons]

theorem partialSum_last (a : List ℚ) (hne : a ≠ []) : partialSum a (a.length - 1) = a.sum := by
  have hpos : 0 < a.length := List.length_pos.mpr hne
  have h1 : a.length - 1 + 1 = a.length := by omega
  rw [partialSum, h1, List.take_length]

/-- The linear scan stops at the *first* index whose partial sum reaches
the deficit, provided some index does. -/
theorem selectReaction_spec : ∀ (a : List ℚ) (d : ℚ) (j : ℕ),
    j < a.length → d ≤ partialSum a j →
    ∃ mu : ℕ, selectReaction d a = some mu ∧ mu < a.length ∧
      d ≤ partialSum a mu ∧ ∀ k < mu, partialSum a k < d
  | [], _, j, hj, _ => by simp at hj
  | x :: xs, d, j, hj, hge => by
    rw [selectReaction]
    by_cases hd : d - x ≤ 0
    · rw [if_pos hd]
      refine ⟨0, rfl, by simp, ?_, ?_⟩
      · rw [partialSum_zero]
        linarith
      · intro k hk
        exact absurd hk (Nat.not_lt_zero k)
    · rw [if_neg hd]
      match j with
      | 0 =>
        rw [partialSum_zero] at hge
        linarith
      | j + 1 =>
        rw [partialSum_cons] at hge
        obtain ⟨mu, hsel, hlt, hmu, hfirst⟩ :=
          selectReaction_spec xs (d - x) j (by simpa using hj) (by linarith)
        refine ⟨mu + 1, by rw [hsel]; rfl, by simp; omega, ?_, ?_⟩
        · rw [partialSum_cons]
          linarith
        · intro k hk
          match k with
          | 0 =>
            rw [partialSum_zero]
            linarith
          | k + 1 =>
            rw [partialSum_cons]
            have := hfirst k (by omega)
            linarith

/-- **C2**.  For every propensity vector with positive total
`a0 = sum a` and uniform draws `r1, r2 ∈ (0, 1)`, the sampler returns
the waiting time `(1/a0) * log(1/r1)` together with the smallest index
`mu` whose cumulative propensity `a[0] + … + a[mu]` is at least
`r2 * a0` (all earlier partial sums are strictly below it, so ties break
to the earliest reaction in declaration order). -/
theorem next_values_spec (logf : ℚ → ℚ) (a0 : ℚ) (a : List ℚ) (r1 r2 : ℚ)
    (ha0 : a0 = a.sum) (hpos : 0 < a0) (hr2a : 0 < r2) (hr2b : r2 < 1) :
    ∃ mu : ℕ, next_values logf a0 a r1 r2 =
        some ((((1 / a0) * logf (1 / r1) : ℚ) : WithTop ℚ), mu)
      ∧ mu < a.length
      ∧ r2 * a0 ≤ partialSum a mu
      ∧ ∀ k < mu, partialSum a k < r2 * a0 := by
  have hne : a ≠ [] := by
    intro h
    rw [h] at ha0
    simp at ha0
    rw [ha0] at hpos
    exact lt_irrefl 0 hpos
  have hlt : r2 * a0 < a0 := by nlinarith
  have hj : a.length - 1 < a.length := by
    have := List.length_pos.mpr hne
    omega
  obtain ⟨mu, hsel, hmu, hge, hfirst⟩ :=
    selectReaction_spec a (r2 * a0) (a.length - 1) hj
      (by rw [partialSum_last a hne, ← ha0]; exact le_of_lt hlt)
  refine ⟨mu, ?_, hmu, hge, hfirst⟩
  rw [next_values, hsel]
  simp [hpos.ne']

/-- Witness for `next_values_spec` at `a = [0, 1]`, `a0 = 1`,
`r1 = r2 = 1/2`, `logf` the identity. -/
theorem next_values_spec_witness :
    ∃ mu : ℕ, next_values (fun x => x) 1 [0, 1] (1 / 2) (1 / 2) =
        some ((((1 / 1) * (fun x : ℚ => x) (1 / (1 / 2)) : ℚ) : WithTop ℚ), mu)
      ∧ mu < ([0, 1] : List ℚ).length
      ∧ (1 / 2 : ℚ) * 1 ≤ partialSum [0, 1] mu
      ∧ ∀ k < mu, partialSum [0, 1] k < (1 / 2 : ℚ) * 1 :=
  next_values_spec (fun x => x) 1 [0, 1] (1 / 2) (1 / 2) (by simp) (by norm_num)
    (by norm_num) (by norm_num)

/-! ## Engine loop invariants -/

/-- Destructure a successful loop iteration. -/
theorem gillespieStep_elim (logf : ℚ → ℚ) (sub stoch : List (List ℤ)) (rates : List ℚ)
    (r1s r2s : ℕ → ℚ) (st st' : SimState)
    (h : gillespieStep logf sub stoch rates r1s r2s st = some st') :
    ∃ (a : List ℚ) (dtmu : WithTop ℚ × ℕ) (row : List ℤ) (species : List ℤ),
      calc_a sub rates st.species = some a ∧
      next_values logf a.sum a (r1s st.n) (r2s st.n) = some dtmu ∧
      stoch.get? dtmu.2 = some row ∧
      addRows st.species row = some species ∧
      st' = ⟨st.t + dtmu.1, species, st.n + 1, st.times ++ [st.t + dtmu.1],
        st.mols ++ [species], st.dts ++ [dtmu.1]⟩ := by
  simp only [gillespieStep, Option.bind_eq_some, Option.map_eq_some'] at h
  obtain ⟨a, ha, dtmu, hnv, row, hrow, species, hsp, hst⟩ := h
  exact ⟨a, dtmu, row, species, ha, hnv, hrow, hsp, hst.symm⟩

/-- Any property preserved by guarded iterations is an invariant of the
loop. -/
theorem gillespieLoop_inv (logf : ℚ → ℚ) (sub stoch : List (List ℤ)) (rates : List ℚ)
    (tmax : ℚ) (n_max : ℕ) (r1s r2s : ℕ → ℚ) (P : SimState → Prop)
    (hstep : ∀ st st', loopGuard tmax n_max st = true →
      gillespieStep logf sub stoch rates r1s r2s st = some st' → P st → P st') :
    ∀ (fuel : ℕ) (st st' : SimState),
      gillespieLoop logf sub stoch rates tmax n_max r1s r2s fuel st = some st' →
      P st → P st'
  | 0, st, st', h, hP => by
    rw [gillespieLoop] at h
    by_cases hg : loopGuard tmax n_max st
    · rw [if_pos hg] at h
      exact absurd h (by simp)
    · rw [if_neg hg] at h
      obtain rfl : st = st' := by simpa using h
      exact hP
  | fuel + 1, st, st', h, hP => by
    rw [gillespieLoop] at h
    by_cases hg : loopGuard tmax n_max st
    · rw [if_pos hg] at h
      cases hstep' : gillespieStep logf sub stoch rates r1s r2s st with
      | none => rw [hstep'] at h; exact absurd h (by simp)
      | some mid =>
        rw [hstep', Option.some_bind] at h
        exact gillespieLoop_inv logf sub stoch rates tmax n_max r1s r2s P hstep
          fuel mid st' h (hstep st mid hg hstep' hP)
    · rw [if_neg hg] at h
      obtain rfl : st = st' := by simpa using h
      exact hP

/-- The guard, unfolded. -/
theorem loopGuard_eq_true (tmax : ℚ) (n_max : ℕ) (st : SimState) :
    loopGuard tmax n_max st = true ↔ st.t < (tmax : WithTop ℚ) ∧ st.n < n_max - 1 := by
  simp [loopGuard]

/-- Destructure a successful engine run. -/
theorem gillespie_core_elim (logf : ℚ → ℚ) (rates : List ℚ) (sub prod : List (List ℤ))
    (tmax : ℚ) (n_max : ℕ) (r1s r2s : ℕ → ℚ) (init : List ℤ) (res : CoreResult)
    (h : gillespie_core logf rates sub prod tmax n_max r1s r2s init = some res) :
    n_max ≠ 0 ∧ ∃ (stoch : List (List ℤ)) (final : SimState),
      matAdd sub prod = some stoch ∧
      gillespieLoop logf sub stoch rates tmax n_max r1s r2s n_max
        ⟨((0 : ℚ) : WithTop ℚ), init, 0, [((0 : ℚ) : WithTop ℚ)], [init], []⟩ = some final ∧
      res = ⟨final.times.take final.n, final.mols.take final.n, final.dts.take final.n,
        final.t, final.n⟩ := by
  rw [gillespie_core] at h
  by_cases hn : n_max = 0
  · rw [if_pos hn] at h
    exact absurd h (by simp)
  · rw [if_neg hn] at h
    simp only [Option.bind_eq_some, Option.map_eq_some'] at h
    obtain ⟨stoch, hst, final, hloop, hres⟩ := h
    exact ⟨hn, stoch, final, hst, hloop, hres.symm⟩

/-- **C3**.  The simulation loop terminates (the embedding is a total
function: the step counter strictly increases and is bounded by the step
budget, and the source loop has the same guard), and for every run that
returns a trajectory: the step count is at most `n_max - 1` (hence at
most the budget `N`), every elapsed time recorded in the returned
(truncated) trajectory is strictly below the horizon `tmax`, and the
returned arrays all have length equal to the number of events actually
fired — not the pre-allocated budget. -/
theorem gillespie_core_bounds (logf : ℚ → ℚ) (rates : List ℚ) (sub prod : List (List ℤ))
    (tmax : ℚ) (n_max : ℕ) (r1s r2s : ℕ → ℚ) (init : List ℤ) (res : CoreResult)
    (h : gillespie_core logf rates sub prod tmax n_max r1s r2s init = some res) :
    res.steps ≤ n_max - 1 ∧
    res.times.length = res.steps ∧ res.mols.length = res.steps ∧
    res.dts.length = res.steps ∧
    ∀ x ∈ res.times, x < (tmax : WithTop ℚ) := by
  obtain ⟨hn, stoch, final, hst, hloop, hres⟩ := gillespie_core_elim logf rates sub prod
    tmax n_max r1s r2s init res h
  have hP : (fun st : SimState => st.n ≤ n_max - 1 ∧ st.mols.length = st.n + 1 ∧
      st.dts.length = st.n ∧
      ∃ pre : List (WithTop ℚ), st.times = pre ++ [st.t] ∧ pre.length = st.n ∧
        ∀ x ∈ pre, x < (tmax : WithTop ℚ)) final := by
    apply gillespieLoop_inv logf sub stoch rates tmax n_max r1s r2s _ ?_ n_max _ final hloop ?_
    · intro st st' hg hstep hPst
      obtain ⟨a, dtmu, row, species, _, _, _, _, rfl⟩ :=
        gillespieStep_elim logf sub stoch rates r1s r2s st st' hstep
      obtain ⟨hgt, hgn⟩ := (loopGuard_eq_true tmax n_max st).mp hg
      obtain ⟨hn1, hml, hdl, pre, hpre, hplen, hplt⟩ := hPst
      refine ⟨by simp; omega, by simp [hml], by simp [hdl], pre ++ [st.t], ?_, ?_, ?_⟩
      · simp [hpre]
      · simp [hplen]
      · intro x hx
        rcases List.mem_append.mp hx with hx1 | hx2
        · exact hplt x hx1
        · obtain rfl : x = st.t := by simpa using hx2
          exact hgt
    · exact ⟨Nat.zero_le _, rfl, rfl, [], by simp, rfl, by simp⟩
  obtain ⟨hn1, hml, hdl, pre, hpre, hplen, hplt⟩ := hP
  subst hres
  refine ⟨hn1, ?_, ?_, ?_, ?_⟩
  · simp only [hpre, ← hplen, List.take_left]
  · simp [hml]
  · simp [hdl]
  · intro x hx
    simp only [hpre, ← hplen, List.take_left] at hx
    exact hplt x hx

/-- Witness for `gillespie_core_bounds` at a concrete run (horizon 0, so
the guard stops the loop immediately and the truncated trajectory is
empty). -/
theorem gillespie_core_bounds_witness :
    gillespie_core (fun _ => 1) [1] [[-1, 0]] [[0, 1]] 0 3 (fun _ => 1 / 2)
        (fun _ => 1 / 2) [5, 0] = some ⟨[], [], [], ((0 : ℚ) : WithTop ℚ), 0⟩ ∧
    (0 : ℕ) ≤ 3 - 1 ∧
    ∀ x ∈ (⟨[], [], [], ((0 : ℚ) : WithTop ℚ), 0⟩ : CoreResult).times,
      x < ((0 : ℚ) : WithTop ℚ) := by
  have hres : gillespie_core (fun _ => 1) [1] [[-1, 0]] [[0, 1]] 0 3 (fun _ => 1 / 2)
      (fun _ => 1 / 2) [5, 0] = some ⟨[], [], [], ((0 : ℚ) : WithTop ℚ), 0⟩ := by
    have hm : matAdd [[-1, 0]] [[0, 1]] = some [[-1, 1]] := by decide
    rw [gillespie_core, if_neg (by norm_num), hm, Option.some_bind, gillespieLoop,
      if_neg (by simp [loopGuard])]
    rfl
  refine ⟨hres, by norm_num, ?_⟩
  exact (gillespie_core_bounds (fun _ => 1) [1] [[-1, 0]] [[0, 1]] 0 3 (fun _ => 1 / 2)
    (fun _ => 1 / 2) [5, 0] _ hres).2.2.2.2

/-! ## Conservation of weighted totals (claim C10) -/

/-- Weighted total `v · state` of a species-count vector. -/
def dotQ (v : List ℚ) (xs : List ℤ) : ℚ :=
  (List.zipWith (fun a b => a * (b : ℚ)) v xs).sum

theorem addRows_elim (xs ys zs : List ℤ) (h : addRows xs ys = some zs) :
    xs.length = ys.length ∧ zs = List.zipWith (· + ·) xs ys := by
  rw [addRows] at h
  by_cases hl : xs.length = ys.length
  · rw [if_pos hl] at h
    exact ⟨hl, by simpa using h.symm⟩
  · rw [if_neg hl] at h
    exact absurd h (by simp)

theorem dotQ_nil (v : List ℚ) : dotQ v [] = 0 := by
  simp [dotQ]

theorem dotQ_cons (a : ℚ) (vt : List ℚ) (x : ℤ) (xt : List ℤ) :
    dotQ (a :: vt) (x :: xt) = a * (x : ℚ) + dotQ vt xt := by
  simp [dotQ]

theorem dotQ_add : ∀ (v : List ℚ) (xs ys : List ℤ), xs.length = ys.length →
    dotQ v (List.zipWith (· + ·) xs ys) = dotQ v xs + dotQ v ys
  | [], _, _, _ => by simp [dotQ]
  | a :: vt, [], ys, hlen => by
    obtain rfl : ys = [] := by
      cases ys with
      | nil => rfl
      | cons y yt => simp at hlen
    simp [dotQ]
  | a :: vt, x :: xt, ys, hlen => by
    match ys with
    | [] => simp at hlen
    | y :: yt =>
      have ih := dotQ_add vt xt yt (by simpa using hlen)
      rw [List.zipWith_cons_cons, dotQ_cons, dotQ_cons, dotQ_cons, ih]
      push_cast
      ring

/-- **C10**.  For every weighting vector `v` orthogonal to every row of
the combined stoichiometry `stoch = sub + prod` (a closed network in the
claim's sense), every state recorded in a returned trajectory has the
same weighted total `v · state` as the initial state. -/
theorem gillespie_conservation (logf : ℚ → ℚ) (rates : List ℚ) (sub prod : List (List ℤ))
    (tmax : ℚ) (n_max : ℕ) (r1s r2s : ℕ → ℚ) (init : List ℤ) (res : CoreResult)
    (v : List ℚ) (stoch : List (List ℤ))
    (hst : matAdd sub prod = some stoch)
    (hv : ∀ row ∈ stoch, dotQ v row = 0)
    (h : gillespie_core logf rates sub prod tmax n_max r1s r2s init = some res) :
    ∀ state ∈ res.mols, dotQ v state = dotQ v init := by
  obtain ⟨hn, stoch2, final, hst2, hloop, hres⟩ := gillespie_core_elim logf rates sub prod
    tmax n_max r1s r2s init res h
  obtain rfl : stoch = stoch2 := by
    rw [hst] at hst2
    simpa using hst2
  have hP : (fun st : SimState => dotQ v st.species = dotQ v init ∧
      ∀ m ∈ st.mols, dotQ v m = dotQ v init) final := by
    apply gillespieLoop_inv logf sub stoch rates tmax n_max r1s r2s _ ?_ n_max _ final hloop ?_
    · intro st st' hg hstep hPst
      obtain ⟨a, dtmu, row, species, _, _, hrow, hsp, rfl⟩ :=
        gillespieStep_elim logf sub stoch rates r1s r2s st st' hstep
      obtain ⟨hPs, hPm⟩ := hPst
      obtain ⟨hlen, rfl⟩ := addRows_elim st.species row species hsp
      have hrow0 : dotQ v row = 0 := hv row (List.get?_mem hrow)
      have hnew : dotQ v (List.zipWith (· + ·) st.species row) = dotQ v init := by
        rw [dotQ_add v st.species row hlen, hPs, hrow0, add_zero]
      refine ⟨hnew, ?_⟩
      intro m hm
      rcases List.mem_append.mp hm with hm1 | hm2
      · exact hPm m hm1
      · obtain rfl : m = List.zipWith (· + ·) st.species row := by simpa using hm2
        exact hnew
    · exact ⟨rfl, by simp⟩
  subst hres
  intro state hstate
  exact hP.2 state (List.take_subset _ _ hstate)

theorem coe_lt_coe_top (p q : ℚ) (h : p < q) :
    ((p : ℚ) : WithTop ℚ) < ((q : ℚ) : WithTop ℚ) := by
  exact_mod_cast h

/-- Witness for `gillespie_conservation`: the closed reaction `X1 -> X2`
(combined stoichiometry `[-1, 1]`, conserved weight `v = [1, 1]`), run
for two events from `[5, 0]`. -/
theorem gillespie_conservation_witness :
    (∀ row ∈ [([-1, 1] : List ℤ)], dotQ [1, 1] row = 0) ∧
    ∀ state ∈ [([5, 0] : List ℤ), [4, 1]], dotQ [1, 1] state = dotQ [1, 1] [5, 0] := by
  have hm : matAdd [[-1, 0]] [[0, 1]] = some [[-1, 1]] := by decide
  have hv : ∀ row ∈ [([-1, 1] : List ℤ)], dotQ [1, 1] row = 0 := by
    intro row hrow
    obtain rfl : row = [-1, 1] := by simpa using hrow
    norm_num [dotQ]
  have hstep1 : gillespieStep (fun _ => 1) [[-1, 0]] [[-1, 1]] [1] (fun _ => 1 / 2)
      (fun _ => 1 / 2)
      ⟨((0 : ℚ) : WithTop ℚ), [5, 0], 0, [((0 : ℚ) : WithTop ℚ)], [[5, 0]], []⟩ =
      some ⟨((1 / 5 : ℚ) : WithTop ℚ), [4, 1], 1,
        [((0 : ℚ) : WithTop ℚ), ((1 / 5 : ℚ) : WithTop ℚ)], [[5, 0], [4, 1]],
        [((1 / 5 : ℚ) : WithTop ℚ)]⟩ := by
    norm_num [gillespieStep, calc_a, hi_loop, calculate_hi_eq, next_values, selectReaction,
      addRows, show Int.toNat 5 = 5 from rfl, ← WithTop.coe_add]
  have hstep2 : gillespieStep (fun _ => 1) [[-1, 0]] [[-1, 1]] [1] (fun _ => 1 / 2)
      (fun _ => 1 / 2)
      ⟨((1 / 5 : ℚ) : WithTop ℚ), [4, 1], 1,
        [((0 : ℚ) : WithTop ℚ), ((1 / 5 : ℚ) : WithTop ℚ)], [[5, 0], [4, 1]],
        [((1 / 5 : ℚ) : WithTop ℚ)]⟩ =
      some ⟨((9 / 20 : ℚ) : WithTop ℚ), [3, 2], 2,
        [((0 : ℚ) : WithTop ℚ), ((1 / 5 : ℚ) : WithTop ℚ), ((9 / 20 : ℚ) : WithTop ℚ)],
        [[5, 0], [4, 1], [3, 2]],
        [((1 / 5 : ℚ) : WithTop ℚ), ((1 / 4 : ℚ) : WithTop ℚ)]⟩ := by
    norm_num [gillespieStep, calc_a, hi_loop, calculate_hi_eq, next_values, selectReaction,
      addRows, show Int.toNat 4 = 4 from rfl, ← WithTop.coe_add]
  have hcore : gillespie_core (fun _ => 1) [1] [[-1, 0]] [[0, 1]] 100 3 (fun _ => 1 / 2)
      (fun _ => 1 / 2) [5, 0] =
      some ⟨[((0 : ℚ) : WithTop ℚ), ((1 / 5 : ℚ) : WithTop ℚ)], [[5, 0], [4, 1]],
        [((1 / 5 : ℚ) : WithTop ℚ), ((1 / 4 : ℚ) : WithTop ℚ)],
        ((9 / 20 : ℚ) : WithTop ℚ), 2⟩ := by
    rw [gillespie_core, if_neg (by norm_num), hm, Option.some_bind, gillespieLoop,
      if_pos ((loopGuard_eq_true _ _ _).mpr
        ⟨coe_lt_coe_top 0 100 (by norm_num), by norm_num⟩),
      hstep1, Option.some_bind, gillespieLoop,
      if_pos ((loopGuard_eq_true _ _ _).mpr
        ⟨coe_lt_coe_top (1 / 5) 100 (by norm_num), by norm_num⟩),
      hstep2, Option.some_bind, gillespieLoop, if_neg (by simp [loopGuard])]
    rfl
  refine ⟨hv, ?_⟩
  have := gillespie_conservation (fun _ => 1) [1] [[-1, 0]] [[0, 1]] 100 3 (fun _ => 1 / 2)
    (fun _ => 1 / 2) [5, 0] _ [1, 1] [[-1, 1]] hm hv hcore
  simpa using this

/-! ## Stall behaviour at zero total propensity (claim C7) -/

/-- **C7** (counterexample to the claim as stated).  A stalled input
(single reaction `X1 -> 0` with no molecules of `X1`, so every propensity
is 0) does *not* produce a distinct, detectable stall report: the run
returns an ordinary trajectory triple through the normal horizon exit —
the same `some`-shaped result as any horizon-terminated run — after
spuriously selecting reaction 0 and setting the time to infinity.  The
only trace of the stall is the infinite entry in the stored waiting
times. -/
theorem stall_counterexample :
    gillespie_core (fun _ => 1) [1] [[-1]] [[0]] 60 10 (fun _ => 1 / 2) (fun _ => 1 / 2)
      [0] = some ⟨[((0 : ℚ) : WithTop ℚ)], [[0]], [⊤], ⊤, 1⟩ := by
  have hm : matAdd [[-1]] [[0]] = some [[-1]] := by decide
  have hstep : gillespieStep (fun _ => 1) [[-1]] [[-1]] [1] (fun _ => 1 / 2) (fun _ => 1 / 2)
      ⟨((0 : ℚ) : WithTop ℚ), [0], 0, [((0 : ℚ) : WithTop ℚ)], [[0]], []⟩ =
      some ⟨⊤, [-1], 1, [((0 : ℚ) : WithTop ℚ), ⊤], [[0], [-1]], [⊤]⟩ := by
    norm_num [gillespieStep, calc_a, hi_loop, next_values, selectReaction, addRows, add_top]
  rw [gillespie_core, if_neg (by norm_num), hm, Option.some_bind, gillespieLoop,
    if_pos ((loopGuard_eq_true _ _ _).mpr ⟨coe_lt_coe_top 0 60 (by norm_num), by norm_num⟩),
    hstep, Option.some_bind, gillespieLoop, if_neg (by simp [loopGuard])]
  rfl

/-- **C7** (amended).  When the total propensity `a0` is 0 the run does
not loop forever: the float division `1/a0` makes the waiting time
infinite, the next guard check exits through the *normal* horizon
branch, and the result is an ordinary trajectory with no distinct stall
report — the sampler returns `(inf, 0)` (reaction 0 is spuriously
selected and its stoichiometry applied before exit), and the stall is
visible only indirectly as the infinite stored waiting time. -/
theorem stall_terminates_without_report
    (logf : ℚ → ℚ) (rates : List ℚ) (sub prod : List (List ℤ)) (tmax : ℚ) (n_max : ℕ)
    (r1s r2s : ℕ → ℚ) (init : List ℤ) (stoch : List (List ℤ)) (a : List ℚ)
    (x : ℚ) (xs : List ℚ) (row0 : List ℤ)
    (hnm : 2 ≤ n_max)
    (htm : 0 < tmax)
    (hst : matAdd sub prod = some stoch)
    (ha : calc_a sub rates init = some a)
    (hax : a = x :: xs)
    (hx : 0 ≤ x)
    (ha0 : a.sum = 0)
    (hrow : stoch.get? 0 = some row0)
    (hlen : init.length = row0.length) :
    next_values logf a.sum a (r1s 0) (r2s 0) = some (⊤, 0) ∧
    ∃ res : CoreResult,
      gillespie_core logf rates sub prod tmax n_max r1s r2s init = some res ∧
      res.steps = 1 ∧ res.finalTime = ⊤ ∧ res.dts = [⊤] ∧
      res.times = [((0 : ℚ) : WithTop ℚ)] ∧ res.mols = [init] := by
  have nv : next_values logf a.sum a (r1s 0) (r2s 0) = some (⊤, 0) := by
    subst hax
    have hcond : (0 : ℚ) - x ≤ 0 := by linarith
    rw [next_values, ha0, mul_zero, selectReaction, if_pos hcond]
    simp
  refine ⟨nv, ?_⟩
  obtain ⟨m, rfl⟩ : ∃ m, n_max = m + 2 := ⟨n_max - 2, by omega⟩
  have hstep : gillespieStep logf sub stoch rates r1s r2s
      ⟨((0 : ℚ) : WithTop ℚ), init, 0, [((0 : ℚ) : WithTop ℚ)], [init], []⟩ =
      some ⟨⊤, List.zipWith (· + ·) init row0, 1, [((0 : ℚ) : WithTop ℚ), ⊤],
        [init, List.zipWith (· + ·) init row0], [⊤]⟩ := by
    simp only [gillespieStep, ha, Option.some_bind, nv, hrow, addRows, hlen, if_true,
      eq_self_iff_true, Option.map_some', add_top]
    rfl
  have hloop : gillespieLoop logf sub stoch rates tmax (m + 2) r1s r2s (m + 2)
      ⟨((0 : ℚ) : WithTop ℚ), init, 0, [((0 : ℚ) : WithTop ℚ)], [init], []⟩ =
      some ⟨⊤, List.zipWith (· + ·) init row0, 1, [((0 : ℚ) : WithTop ℚ), ⊤],
        [init, List.zipWith (· + ·) init row0], [⊤]⟩ := by
    rw [gillespieLoop,
      if_pos ((loopGuard_eq_true _ _ _).mpr ⟨coe_lt_coe_top 0 tmax htm, by simp⟩),
      hstep, Option.some_bind, gillespieLoop, if_neg (by simp [loopGuard])]
  refine ⟨⟨[((0 : ℚ) : WithTop ℚ)], [init], [⊤], ⊤, 1⟩, ?_, rfl, rfl, rfl, rfl, rfl⟩
  rw [gillespie_core, if_neg (by omega), hst, Option.some_bind, hloop]
  rfl

/-- Witness for `stall_terminates_without_report` at a concrete stalled
input: reaction `X1 -> X1` (combined stoichiometry `[0]`), rate 2, no
molecules. -/
theorem stall_terminates_without_report_witness :
    next_values (fun _ => 1) (List.sum [(0 : ℚ)]) [0] ((1 : ℚ) / 3) ((1 : ℚ) / 3) =
      some (⊤, 0) ∧
    ∃ res : CoreResult,
      gillespie_core (fun _ => 1) [2] [[-1]] [[1]] 7 2 (fun _ => 1 / 3) (fun _ => 1 / 3)
        [0] = some res ∧ res.steps = 1 ∧ res.finalTime = ⊤ ∧ res.dts = [⊤] ∧
      res.times = [((0 : ℚ) : WithTop ℚ)] ∧ res.mols = [[0]] :=
  stall_terminates_without_report (fun _ => 1) [2] [[-1]] [[1]] 7 2 (fun _ => 1 / 3)
    (fun _ => 1 / 3) [0] [[0]] [0] 0 [] [0] (by norm_num) (by norm_num) (by decide)
    (by norm_num [calc_a, hi_loop]) rfl le_rfl (by simp) rfl rfl

/-! ## Time-weighted coefficient of variation (claim C9) -/

/-- The claim's weighted mean, transcribed:
`weightedMean_s = sum_step (waitTime_step * value_{s,step}) / totalElapsedTime`. -/
def weightedMean_spec (dts vals : List ℚ) (T : ℚ) : ℚ :=
  (List.zipWith (· * ·) dts vals).sum / T

/-- The claim's coefficient of variation, transcribed:
`CV_s = 100 * sqrt( sum_step (value - weightedMean)^2 * (waitTime/T) ) / weightedMean`. -/
def cv_spec (sqrtf : ℚ → ℚ) (dts vals : List ℚ) (T : ℚ) : ℚ :=
  100 * sqrtf ((List.zipWith
      (fun dt v => (v - weightedMean_spec dts vals T) ^ 2 * (dt / T)) dts vals).sum)
    / weightedMean_spec dts vals T

/-- The code's per-column statistic coincides with the claim's formula. -/
theorem cvCol_eq_cv_spec (sqrtf : ℚ → ℚ) (dts vals : List ℚ) (T : ℚ) :
    cvCol sqrtf dts vals T = cv_spec sqrtf dts vals T := by
  rw [cvCol, cv_spec, show weightedMean_spec = weightedMean from rfl,
    List.zipWith_comm (fun dt v => (v - weightedMean dts vals T) ^ 2 * (dt / T)) dts vals]
  ring

theorem untopQ_coe (q : ℚ) : untopQ ((q : ℚ) : WithTop ℚ) = some q := rfl

theorem broadcastWidth_self (a : ℕ) : broadcastWidth a a = some a := by
  simp [broadcastWidth]

/-- The truncated waiting-time record has one entry per step taken. -/
theorem gillespie_core_dts_len (logf : ℚ → ℚ) (rates : List ℚ)
    (sub prod : List (List ℤ)) (tmax : ℚ) (n_max : ℕ) (r1s r2s : ℕ → ℚ)
    (init : List ℤ) (res : CoreResult)
    (h : gillespie_core logf rates sub prod tmax n_max r1s r2s init = some res) :
    res.dts.length = res.steps := by
  obtain ⟨hn, stoch, final, hst, hloop, hres⟩ := gillespie_core_elim logf rates sub prod
    tmax n_max r1s r2s init res h
  have hP : (fun st : SimState => st.dts.length = st.n) final := by
    apply gillespieLoop_inv logf sub stoch rates tmax n_max r1s r2s _ ?_ n_max _ final hloop ?_
    · intro st st' hg hstep hPst
      obtain ⟨a, dtmu, row, species, _, _, _, _, rfl⟩ :=
        gillespieStep_elim logf sub stoch rates r1s r2s st st' hstep
      simp [hPst]
    · rfl
  subst hres
  show (final.dts.take final.n).length = final.n
  rw [List.length_take, hP, min_self]

theorem mapM_untopQ_coe : ∀ l : List ℚ,
    (l.map (fun q => ((q : ℚ) : WithTop ℚ))).mapM untopQ = some l
  | [] => rfl
  | q :: l => by
    simp only [List.map_cons, List.mapM_cons, untopQ_coe, mapM_untopQ_coe l]
    rfl

theorem sum_map_coe : ∀ l : List ℚ,
    (l.map (fun q => ((q : ℚ) : WithTop ℚ))).sum = ((l.sum : ℚ) : WithTop ℚ)
  | [] => by simp
  | q :: l => by
    simp only [List.map_cons, List.sum_cons, sum_map_coe l, ← WithTop.coe_add]

/-- The final `current_time` equals the sum of the stored (truncated)
waiting times: every iteration stores exactly the increment it adds. -/
theorem gillespie_core_time_eq_sum (logf : ℚ → ℚ) (rates : List ℚ)
    (sub prod : List (List ℤ)) (tmax : ℚ) (n_max : ℕ) (r1s r2s : ℕ → ℚ)
    (init : List ℤ) (res : CoreResult)
    (h : gillespie_core logf rates sub prod tmax n_max r1s r2s init = some res) :
    res.finalTime = res.dts.sum := by
  obtain ⟨hn, stoch, final, hst, hloop, hres⟩ := gillespie_core_elim logf rates sub prod
    tmax n_max r1s r2s init res h
  have hP : (fun st : SimState => st.t = st.dts.sum ∧ st.dts.length = st.n) final := by
    apply gillespieLoop_inv logf sub stoch rates tmax n_max r1s r2s _ ?_ n_max _ final hloop ?_
    · intro st st' hg hstep hPst
      obtain ⟨a, dtmu, row, species, _, _, _, _, rfl⟩ :=
        gillespieStep_elim logf sub stoch rates r1s r2s st st' hstep
      obtain ⟨hPt, hPl⟩ := hPst
      constructor
      · simp [List.sum_append, hPt]
      · simp [hPl]
    · exact ⟨by simp, rfl⟩
  obtain ⟨hPt, hPl⟩ := hP
  subst hres
  show final.t = (final.dts.take final.n).sum
  rw [← hPl, List.take_length, hPt]

/-- **C9**.  For a run with at least one step, finite positive total
elapsed time `T`, finite stored waiting times, and a synapse count
`int((len(init)-1)/2)` matching the tracked-column count (so that the
numpy broadcast of source lines 238–242 is the identity, as in the
shipped 9-species network where both are 4), the statistics pass
succeeds and returns, for each tracked column `c` (with nonzero weighted
mean, per the claim's proviso), exactly the claim's time-weighted
coefficient of variation over the truncated trajectory — and the
normalising `totalElapsedTime` equals the sum of the stored waiting
times, i.e. the total elapsed simulation time. -/
theorem gillespie_cv_eq_spec (logf sqrtf : ℚ → ℚ) (rates : List ℚ)
    (sub prod : List (List ℤ)) (tmax : ℚ) (n_max : ℕ) (r1s r2s : ℕ → ℚ)
    (init : List ℤ) (res : CoreResult) (dtsQ : List ℚ) (T : ℚ)
    (hcore : gillespie_core logf rates sub prod tmax n_max r1s r2s init = some res)
    (hdts : res.dts = dtsQ.map (fun q => ((q : ℚ) : WithTop ℚ)))
    (hT : res.finalTime = ((T : ℚ) : WithTop ℚ))
    (hTpos : 0 < T)
    (hsteps : 1 ≤ res.steps)
    (hSW : (init.length - 1) / 2 = min 4 (sub.headD []).length) :
    ∃ cv : List ℚ,
      gillespie_cv sqrtf ((init.length - 1) / 2) (sub.headD []).length dtsQ res.mols T =
        some cv
      ∧ gillespie_algo logf sqrtf rates sub prod tmax n_max r1s r2s init =
          some (res.times, res.mols, cv)
      ∧ T = dtsQ.sum
      ∧ ∀ c < min 4 (sub.headD []).length,
          weightedMean_spec dtsQ (colVals res.mols c) T ≠ 0 →
          cv.get? c = some (cv_spec sqrtf dtsQ (colVals res.mols c) T) := by
  have hlen : res.dts.length = res.steps :=
    gillespie_core_dts_len logf rates sub prod tmax n_max r1s r2s init res hcore
  have hne : dtsQ.isEmpty = false := by
    rw [hdts, List.length_map] at hlen
    rcases dtsQ with _ | ⟨q, l⟩
    · rw [← hlen] at hsteps
      exact absurd hsteps (by simp)
    · rfl
  have hcv : gillespie_cv sqrtf ((init.length - 1) / 2) (sub.headD []).length dtsQ
      res.mols T =
      some ((List.range (min 4 (sub.headD []).length)).map (fun c =>
        cvCol sqrtf dtsQ (colVals res.mols
          (if min 4 (sub.headD []).length = 1 then 0 else c)) T)) := by
    rw [gillespie_cv, hSW, broadcastWidth_self, Option.some_bind, hne]
    rfl
  refine ⟨_, hcv, ?_, ?_, ?_⟩
  · rw [gillespie_algo, hcore, Option.some_bind, hdts, mapM_untopQ_coe]
    simp only [Option.some_bind]
    rw [hT, untopQ_coe]
    simp only [Option.some_bind]
    rw [hcv, Option.map_some']
  · have hsum := gillespie_core_time_eq_sum logf rates sub prod tmax n_max r1s r2s init
      res hcore
    rw [hT, hdts, sum_map_coe] at hsum
    exact_mod_cast hsum
  · intro c hc _
    rw [List.get?_map, List.get?_range hc]
    have hsel : (if min 4 (sub.headD []).length = 1 then 0 else c) = c := by
      by_cases h1 : min 4 (sub.headD []).length = 1
      · rw [if_pos h1]
        rw [h1] at hc
        omega
      · rw [if_neg h1]
    simp only [Option.map_some']
    rw [hsel, cvCol_eq_cv_spec]

/-- Witness for `gillespie_cv_eq_spec`: the single-step run of
`X1 -> X2` in a 9-species system from `[5, 0, ..., 0]` with step budget
2; the synapse count `(9-1)/2 = 4` equals the tracked-column count
`min 4 9`, and the tracked column 0 has weighted mean 5. -/
theorem gillespie_cv_eq_spec_witness :
    ((1 : ℚ) / 5 = List.sum [(1 / 5 : ℚ)]) ∧
    (gillespie_cv (fun x => x) ((([5, 0, 0, 0, 0, 0, 0, 0, 0] : List ℤ).length - 1) / 2)
        (([[-1, 0, 0, 0, 0, 0, 0, 0, 0]].headD []).length) [1 / 5]
        [[5, 0, 0, 0, 0, 0, 0, 0, 0]] (1 / 5)).bind (fun cv => cv.get? 0) =
      some (cv_spec (fun x => x) [1 / 5] (colVals [[5, 0, 0, 0, 0, 0, 0, 0, 0]] 0) (1 / 5)) := by
  have hstep1 : gillespieStep (fun _ => 1) [[-1, 0, 0, 0, 0, 0, 0, 0, 0]]
      [[-1, 1, 0, 0, 0, 0, 0, 0, 0]] [1] (fun _ => 1 / 2) (fun _ => 1 / 2)
      ⟨((0 : ℚ) : WithTop ℚ), [5, 0, 0, 0, 0, 0, 0, 0, 0], 0, [((0 : ℚ) : WithTop ℚ)],
        [[5, 0, 0, 0, 0, 0, 0, 0, 0]], []⟩ =
      some ⟨((1 / 5 : ℚ) : WithTop ℚ), [4, 1, 0, 0, 0, 0, 0, 0, 0], 1,
        [((0 : ℚ) : WithTop ℚ), ((1 / 5 : ℚ) : WithTop ℚ)],
        [[5, 0, 0, 0, 0, 0, 0, 0, 0], [4, 1, 0, 0, 0, 0, 0, 0, 0]],
        [((1 / 5 : ℚ) : WithTop ℚ)]⟩ := by
    norm_num [gillespieStep, calc_a, hi_loop, calculate_hi_eq, next_values, selectReaction,
      addRows, show Int.toNat 5 = 5 from rfl, ← WithTop.coe_add]
  have hcore : gillespie_core (fun _ => 1) [1] [[-1, 0, 0, 0, 0, 0, 0, 0, 0]]
      [[0, 1, 0, 0, 0, 0, 0, 0, 0]] 100 2 (fun _ => 1 / 2) (fun _ => 1 / 2)
      [5, 0, 0, 0, 0, 0, 0, 0, 0] =
      some ⟨[((0 : ℚ) : WithTop ℚ)], [[5, 0, 0, 0, 0, 0, 0, 0, 0]],
        [((1 / 5 : ℚ) : WithTop ℚ)], ((1 / 5 : ℚ) : WithTop ℚ), 1⟩ := by
    have hm : matAdd [[-1, 0, 0, 0, 0, 0, 0, 0, 0]] [[0, 1, 0, 0, 0, 0, 0, 0, 0]] =
        some [[-1, 1, 0, 0, 0, 0, 0, 0, 0]] := by decide
    rw [gillespie_core, if_neg (by norm_num), hm, Option.some_bind, gillespieLoop,
      if_pos ((loopGuard_eq_true _ _ _).mpr
        ⟨coe_lt_coe_top 0 100 (by norm_num), by norm_num⟩),
      hstep1, Option.some_bind, gillespieLoop, if_neg (by simp [loopGuard])]
    rfl
  obtain ⟨cv, hcv, halgo, hsum, hcol⟩ := gillespie_cv_eq_spec (fun _ => 1) (fun x => x)
    [1] [[-1, 0, 0, 0, 0, 0, 0, 0, 0]] [[0, 1, 0, 0, 0, 0, 0, 0, 0]] 100 2
    (fun _ => 1 / 2) (fun _ => 1 / 2) [5, 0, 0, 0, 0, 0, 0, 0, 0]
    ⟨[((0 : ℚ) : WithTop ℚ)], [[5, 0, 0, 0, 0, 0, 0, 0, 0]],
      [((1 / 5 : ℚ) : WithTop ℚ)], ((1 / 5 : ℚ) : WithTop ℚ), 1⟩
    [1 / 5] (1 / 5) hcore (by simp) rfl (by norm_num) le_rfl (by decide)
  refine ⟨hsum, ?_⟩
  rw [hcv, Option.some_bind]
  exact hcol 0 (by decide) (by norm_num [weightedMean_spec, colVals])

/-! ## Parser correctness (claims C4, C6, C8) -/

/-- Entry `(r, c)` of a stoichiometry matrix (0 outside the matrix). -/
def entry (M : List (List ℤ)) (r c : ℕ) : ℤ :=
  ((M.get? r).getD []).getD c 0

theorem getD_set_ne' {α : Type} (b : List α) (i k : ℕ) (v d : α) (h : i ≠ k) :
    (b.set i v).getD k d = b.getD k d := by
  simp [List.getD_eq_getD_get?, List.getElem?_set_ne h]

theorem getD_set_self' {α : Type} (b : List α) (i : ℕ) (v d : α) (h : i < b.length) :
    (b.set i v).getD i d = v := by
  simp [List.getD_eq_getD_get?, List.getElem?_set_eq_of_lt _ h]

theorem le_foldr_max : ∀ (l : List ℕ) (x : ℕ), x ∈ l → x ≤ l.foldr max 0
  | [], x, hx => by simp at hx
  | a :: t, x, hx => by
    rcases List.mem_cons.mp hx with rfl | hx2
    · exact le_max_left _ _
    · exact le_trans (le_foldr_max t x hx2) (le_max_right _ _)

theorem length_of_mapM {α β : Type} (f : α → Option β) :
    ∀ (l : List α) (l' : List β), l.mapM f = some l' → l'.length = l.length
  | [], l', h => by
    simp only [List.mapM_nil] at h
    obtain rfl : [] = l' := by simpa using h
    rfl
  | a :: t, l', h => by
    simp only [List.mapM_cons] at h
    cases hfa : f a with
    | none => rw [hfa] at h; exact absurd h (by simp)
    | some b =>
      rw [hfa] at h
      cases ht : t.mapM f with
      | none => rw [ht] at h; exact absurd h (by simp)
      | some bs =>
        rw [ht] at h
        obtain rfl : b :: bs = l' := by simpa using h
        simp [length_of_mapM f t bs ht]

theorem mapM_eq_none_of_mem {α β : Type} (f : α → Option β) :
    ∀ (l : List α) (x : α), x ∈ l → f x = none → l.mapM f = none
  | [], x, hx, _ => by simp at hx
  | a :: t, x, hx, hfx => by
    simp only [List.mapM_cons]
    rcases List.mem_cons.mp hx with rfl | hx2
    · rw [hfx]
      rfl
    · cases hfa : f a with
      | none => rfl
      | some b => rw [mapM_eq_none_of_mem f t x hx2 hfx]; rfl

theorem mapM_of_forall_some {α β : Type} (g : α → Option β) (f : α → β) :
    ∀ l : List α, (∀ x ∈ l, g x = some (f x)) → l.mapM g = some (l.map f)
  | [], _ => rfl
  | a :: t, h => by
    simp only [List.mapM_cons, h a (by simp),
      mapM_of_forall_some g f t (fun x hx => h x (List.mem_cons_of_mem _ hx))]
    rfl

theorem npSet_ok (row : List ℤ) (idx : ℕ) (v : ℤ) (h1 : 1 ≤ idx)
    (h2 : idx - 1 < row.length) :
    npSet row idx v = some (row.set (idx - 1) v) := by
  rw [npSet, if_neg (by omega), if_pos h2]

theorem fillRow_go (sign : ℤ) :
    ∀ (ts : List (ℕ × ℕ)) (row : List ℤ),
    (∀ p ∈ ts, 1 ≤ p.2 ∧ p.2 - 1 < row.length) →
    (ts.map Prod.snd).Nodup →
    ∃ row' : List ℤ,
      ts.foldlM (fun row t => npSet row t.2 (sign * (t.1 : ℤ))) row = some row' ∧
      row'.length = row.length ∧
      (∀ p ∈ ts, row'.getD (p.2 - 1) 0 = sign * (p.1 : ℤ)) ∧
      (∀ c : ℕ, (c + 1) ∉ ts.map Prod.snd → row'.getD c 0 = row.getD c 0)
  | [], row, _, _ => ⟨row, rfl, rfl, by simp, fun c _ => rfl⟩
  | (coef, idx) :: rest, row, hb, hnd => by
    obtain ⟨h1, h2⟩ := hb (coef, idx) (by simp)
    have hset := npSet_ok row idx (sign * (coef : ℤ)) h1 h2
    have hnd2 : ((coef, idx).2 :: rest.map Prod.snd).Nodup := by
      rw [← List.map_cons]
      exact hnd
    have hnd' := List.nodup_cons.mp hnd2
    obtain ⟨row', hfold, hlen, hmem, huntouched⟩ :=
      fillRow_go sign rest (row.set (idx - 1) (sign * (coef : ℤ)))
        (fun p hp => by
          obtain ⟨hp1, hp2⟩ := hb p (List.mem_cons_of_mem _ hp)
          exact ⟨hp1, by simpa using hp2⟩)
        hnd'.2
    refine ⟨row', ?_, by simpa using hlen, ?_, ?_⟩
    · rw [List.foldlM_cons, hset]
      simpa using hfold
    · intro p hp
      rcases List.mem_cons.mp hp with rfl | hp2
      · rw [huntouched (idx - 1) (by
          intro hmem2
          exact hnd'.1 (by simpa [Nat.sub_add_cancel h1] using hmem2))]
        exact getD_set_self' row (idx - 1) _ _ h2
      · exact hmem p hp2
    · intro c hc
      have hc1 : (c + 1) ≠ idx := fun h => hc (by simp [h])
      have hc2 : (c + 1) ∉ rest.map Prod.snd := fun h => hc (by simp [h])
      rw [huntouched c hc2, getD_set_ne' row (idx - 1) c _ _ (by omega)]

theorem getD_replicate_zero (cols c : ℕ) :
    (List.replicate cols (0 : ℤ)).getD c 0 = 0 := by
  rcases Nat.lt_or_ge c cols with h | h
  · rw [List.getD_eq_getElem _ _ (by simpa using h)]
    simp
  · rw [List.getD_eq_default _ _ (by simpa using h)]

theorem fillRow_ok (cols : ℕ) (sign : ℤ) (ts : List (ℕ × ℕ))
    (hb : ∀ p ∈ ts, 1 ≤ p.2 ∧ p.2 ≤ cols)
    (hnd : (ts.map Prod.snd).Nodup) :
    ∃ row : List ℤ, fillRow cols sign ts = some row ∧ row.length = cols ∧
      (∀ p ∈ ts, row.getD (p.2 - 1) 0 = sign * (p.1 : ℤ)) ∧
      (∀ c : ℕ, (c + 1) ∉ ts.map Prod.snd → row.getD c 0 = 0) := by
  obtain ⟨row, hfold, hlen, hmem, huntouched⟩ := fillRow_go sign ts (List.replicate cols 0)
    (fun p hp => ⟨(hb p hp).1, by
      simp only [List.length_replicate]
      have := hb p hp
      omega⟩) hnd
  refine ⟨row, hfold, by simpa using hlen, hmem, ?_⟩
  intro c hc
  rw [huntouched c hc, getD_replicate_zero]

theorem fillMat_ok (nRows cols : ℕ) (sign : ℤ) (nr : List (List (ℕ × ℕ)))
    (h : ∀ ts ∈ nr, ∀ p ∈ ts, 1 ≤ p.2 ∧ p.2 ≤ cols)
    (hnd : ∀ ts ∈ nr, (ts.map Prod.snd).Nodup) :
    ∃ M : List (List ℤ), fillMat nRows cols sign nr = some M ∧ M.length = nRows ∧
      (∀ row ∈ M, row.length = cols) ∧
      (∀ r ts, r < nRows → nr.get? r = some ts →
        ∃ row, fillRow cols sign ts = some row ∧ M.get? r = some row) ∧
      (∀ r, r < nRows → nr.length ≤ r → M.get? r = some (List.replicate cols 0)) := by
  have hf : ∀ r ∈ List.range nRows,
      (match nr.get? r with
        | some ts => fillRow cols sign ts
        | none => some (List.replicate cols 0)) =
      some (match nr.get? r with
        | some ts => (fillRow cols sign ts).getD []
        | none => List.replicate cols 0) := by
    intro r _
    cases hget : nr.get? r with
    | none => rfl
    | some ts =>
      obtain ⟨row, hrow, _, _, _⟩ := fillRow_ok cols sign ts
        (h ts (List.get?_mem hget)) (hnd ts (List.get?_mem hget))
      simp [hrow]
  refine ⟨_, mapM_of_forall_some _ _ (List.range nRows) hf, by simp, ?_, ?_, ?_⟩
  · intro row hrow
    obtain ⟨r, _, hfr⟩ := List.mem_map.mp hrow
    cases hget : nr.get? r with
    | none =>
      have hget' : nr[r]? = none := by
        rw [← List.get?_eq_getElem?]
        exact hget
      rw [← hfr]
      simp [hget']
    | some ts =>
      obtain ⟨row2, hrow2, hlen2, _, _⟩ := fillRow_ok cols sign ts
        (h ts (List.get?_mem hget)) (hnd ts (List.get?_mem hget))
      have hget' : nr[r]? = some ts := by
        rw [← List.get?_eq_getElem?]
        exact hget
      rw [← hfr]
      simp [hget', hrow2, hlen2]
  · intro r ts hr hget
    obtain ⟨row, hrow, _, _, _⟩ := fillRow_ok cols sign ts
      (h ts (List.get?_mem hget)) (hnd ts (List.get?_mem hget))
    refine ⟨row, hrow, ?_⟩
    rw [List.get?_map, List.get?_range hr]
    have hget' : nr[r]? = some ts := by
      rw [← List.get?_eq_getElem?]
      exact hget
    simp [hget', hrow]
  · intro r hr hlen
    rw [List.get?_map, List.get?_range hr]
    have hget' : nr[r]? = none := by
      rw [← List.get?_eq_getElem?]
      exact List.get?_eq_none.mpr hlen
    simp [hget']

/-- **C4**.  For every reaction string that decomposes into well-formed
reactions (every chunk has a `->`, every side parses and contributes at
least one term, species indices are 1-based and not repeated within a
side), the parser returns two matrices with one row per reaction chunk
and one column per species up to the largest index referenced anywhere
(substrates and products combined): the substrate entry for reaction `r`
and a parsed term `(coef, idx)` is `-coef` at 0-based column `idx - 1`,
the product entry is `+coef`, all other columns of the row are 0, and a
term with an omitted coefficient (empty token before the `X`) is parsed
with coefficient 1. -/
theorem reactions_stoch_spec
    (s : List Char) (chunks : List (List Char)) (pairs : List (List Char × List Char))
    (subTerms prodTerms : List (List (ℕ × ℕ)))
    (hchunks : pySplit [','] s = chunks)
    (hpairs : chunks.mapM splitReaction = some pairs)
    (hsubs : pairs.mapM (fun p => parseSide p.1) = some subTerms)
    (hprods : pairs.mapM (fun p => parseSide p.2) = some prodTerms)
    (hneS : ∀ ts ∈ subTerms, ts ≠ []) (hneP : ∀ ts ∈ prodTerms, ts ≠ [])
    (hidxS : ∀ ts ∈ subTerms, ∀ p ∈ ts, 1 ≤ p.2)
    (hidxP : ∀ ts ∈ prodTerms, ∀ p ∈ ts, 1 ≤ p.2)
    (hndS : ∀ ts ∈ subTerms, (ts.map Prod.snd).Nodup)
    (hndP : ∀ ts ∈ prodTerms, (ts.map Prod.snd).Nodup) :
    ∃ S P : List (List ℤ),
      reactions_stoch s = some (S, P) ∧
      S.length = chunks.length ∧ P.length = chunks.length ∧
      (∀ row ∈ S, row.length = max (maxSpecies subTerms) (maxSpecies prodTerms)) ∧
      (∀ row ∈ P, row.length = max (maxSpecies subTerms) (maxSpecies prodTerms)) ∧
      (∀ r ts, subTerms.get? r = some ts → ∀ p ∈ ts,
        entry S r (p.2 - 1) = -(p.1 : ℤ)) ∧
      (∀ r ts, prodTerms.get? r = some ts → ∀ p ∈ ts,
        entry P r (p.2 - 1) = (p.1 : ℤ)) ∧
      (∀ r ts c, subTerms.get? r = some ts → (c + 1) ∉ ts.map Prod.snd →
        entry S r c = 0) ∧
      (∀ r ts c, prodTerms.get? r = some ts → (c + 1) ∉ ts.map Prod.snd →
        entry P r c = 0) ∧
      (∀ (t p0 p1 : List Char) (n : ℕ), pySplit ['X'] t = [p0, p1] →
        pyInt? p0 = none → pyInt? p1 = some n → parseTerm t = some (some (1, n))) := by
  have hlenPairs : pairs.length = chunks.length := length_of_mapM _ _ _ hpairs
  have hlenS : subTerms.length = pairs.length := length_of_mapM _ _ _ hsubs
  have hlenP : prodTerms.length = pairs.length := length_of_mapM _ _ _ hprods
  have hfilS : subTerms.filter (fun l => !l.isEmpty) = subTerms := by
    rw [List.filter_eq_self]
    intro a ha
    simp [List.isEmpty_iff]
    exact hneS a ha
  have hfilP : prodTerms.filter (fun l => !l.isEmpty) = prodTerms := by
    rw [List.filter_eq_self]
    intro a ha
    simp [List.isEmpty_iff]
    exact hneP a ha
  have hbS : ∀ ts ∈ subTerms, ∀ p ∈ ts,
      1 ≤ p.2 ∧ p.2 ≤ max (maxSpecies subTerms) (maxSpecies prodTerms) := by
    intro ts hts p hp
    refine ⟨hidxS ts hts p hp, le_trans ?_ (le_max_left _ _)⟩
    exact le_foldr_max _ _ (List.mem_map.mpr ⟨p, List.mem_flatten.mpr ⟨ts, hts, hp⟩, rfl⟩)
  have hbP : ∀ ts ∈ prodTerms, ∀ p ∈ ts,
      1 ≤ p.2 ∧ p.2 ≤ max (maxSpecies subTerms) (maxSpecies prodTerms) := by
    intro ts hts p hp
    refine ⟨hidxP ts hts p hp, le_trans ?_ (le_max_right _ _)⟩
    exact le_foldr_max _ _ (List.mem_map.mpr ⟨p, List.mem_flatten.mpr ⟨ts, hts, hp⟩, rfl⟩)
  obtain ⟨S, hMS, hSlen, hSrows, hSentry, _⟩ := fillMat_ok chunks.length
    (max (maxSpecies subTerms) (maxSpecies prodTerms)) (-1) subTerms hbS hndS
  obtain ⟨P, hMP, hPlen, hProws, hPentry, _⟩ := fillMat_ok chunks.length
    (max (maxSpecies subTerms) (maxSpecies prodTerms)) 1 prodTerms hbP hndP
  refine ⟨S, P, ?_, hSlen, hPlen, hSrows, hProws, ?_, ?_, ?_, ?_, ?_⟩
  · rw [reactions_stoch, hchunks, hpairs, Option.some_bind, hsubs, Option.some_bind,
      hprods, Option.some_bind, hfilS, hfilP, hMS, Option.some_bind, hMP, Option.map_some']
  · intro r ts hts p hp
    have hr : r < chunks.length := by
      have := (List.get?_eq_some.mp hts).1
      omega
    obtain ⟨row, hrow, hget⟩ := hSentry r ts hr hts
    obtain ⟨row2, hrow2, _, hmem2, _⟩ := fillRow_ok _ _ ts (hbS ts (List.get?_mem hts))
      (hndS ts (List.get?_mem hts))
    obtain rfl : row = row2 := by
      rw [hrow] at hrow2
      simpa using hrow2
    rw [entry, hget, Option.getD_some, hmem2 p hp]
    ring
  · intro r ts hts p hp
    have hr : r < chunks.length := by
      have := (List.get?_eq_some.mp hts).1
      omega
    obtain ⟨row, hrow, hget⟩ := hPentry r ts hr hts
    obtain ⟨row2, hrow2, _, hmem2, _⟩ := fillRow_ok _ _ ts (hbP ts (List.get?_mem hts))
      (hndP ts (List.get?_mem hts))
    obtain rfl : row = row2 := by
      rw [hrow] at hrow2
      simpa using hrow2
    rw [entry, hget, Option.getD_some, hmem2 p hp]
    ring
  · intro r ts c hts hc
    have hr : r < chunks.length := by
      have := (List.get?_eq_some.mp hts).1
      omega
    obtain ⟨row, hrow, hget⟩ := hSentry r ts hr hts
    obtain ⟨row2, hrow2, _, _, hz2⟩ := fillRow_ok _ _ ts (hbS ts (List.get?_mem hts))
      (hndS ts (List.get?_mem hts))
    obtain rfl : row = row2 := by
      rw [hrow] at hrow2
      simpa using hrow2
    rw [entry, hget, Option.getD_some, hz2 c hc]
  · intro r ts c hts hc
    have hr : r < chunks.length := by
      have := (List.get?_eq_some.mp hts).1
      omega
    obtain ⟨row, hrow, hget⟩ := hPentry r ts hr hts
    obtain ⟨row2, hrow2, _, _, hz2⟩ := fillRow_ok _ _ ts (hbP ts (List.get?_mem hts))
      (hndP ts (List.get?_mem hts))
    obtain rfl : row = row2 := by
      rw [hrow] at hrow2
      simpa using hrow2
    rw [entry, hget, Option.getD_some, hz2 c hc]
  · intro t p0 p1 n hsplit hp0 hp1
    simp only [parseTerm, hsplit, hp0, hp1, Option.getD_none]

/-- Witness for `reactions_stoch_spec` at the concrete network
`2X1+X2->X3,X3->2X1`. -/
theorem reactions_stoch_spec_witness :
    ∃ S P : List (List ℤ),
      reactions_stoch ("2X1+X2->X3,X3->2X1".data) = some (S, P) ∧
      S.length = [("2X1+X2->X3".data), ("X3->2X1".data)].length ∧
      P.length = [("2X1+X2->X3".data), ("X3->2X1".data)].length ∧
      (∀ row ∈ S, row.length =
        max (maxSpecies [[(2, 1), (1, 2)], [(1, 3)]]) (maxSpecies [[(1, 3)], [(2, 1)]])) ∧
      (∀ row ∈ P, row.length =
        max (maxSpecies [[(2, 1), (1, 2)], [(1, 3)]]) (maxSpecies [[(1, 3)], [(2, 1)]])) ∧
      (∀ r ts, ([[(2, 1), (1, 2)], [(1, 3)]] : List (List (ℕ × ℕ))).get? r = some ts →
        ∀ p ∈ ts, entry S r (p.2 - 1) = -(p.1 : ℤ)) ∧
      (∀ r ts, ([[(1, 3)], [(2, 1)]] : List (List (ℕ × ℕ))).get? r = some ts →
        ∀ p ∈ ts, entry P r (p.2 - 1) = (p.1 : ℤ)) ∧
      (∀ r ts c, ([[(2, 1), (1, 2)], [(1, 3)]] : List (List (ℕ × ℕ))).get? r = some ts →
        (c + 1) ∉ ts.map Prod.snd → entry S r c = 0) ∧
      (∀ r ts c, ([[(1, 3)], [(2, 1)]] : List (List (ℕ × ℕ))).get? r = some ts →
        (c + 1) ∉ ts.map Prod.snd → entry P r c = 0) ∧
      (∀ (t p0 p1 : List Char) (n : ℕ), pySplit ['X'] t = [p0, p1] →
        pyInt? p0 = none → pyInt? p1 = some n → parseTerm t = some (some (1, n))) :=
  reactions_stoch_spec ("2X1+X2->X3,X3->2X1".data)
    [("2X1+X2->X3".data), ("X3->2X1".data)]
    [(("2X1+X2".data), ("X3".data)), (("X3".data), ("2X1".data))]
    [[(2, 1), (1, 2)], [(1, 3)]] [[(1, 3)], [(2, 1)]]
    (by decide) (by decide) (by decide) (by decide) (by decide) (by decide)
    (by decide) (by decide) (by decide) (by decide)

/-- **C6**.  The claim (and the spec) say row `r` of both matrices
corresponds to the `r`-th reaction even when a side contributes no
species terms.  The code keeps only *non-empty* parsed side lists before
filling rows by position, so every reaction after one with an empty side
has its entries written one row too high.  On the parser's own docstring
example `2X1+X2->X3,X1->0,X3+4X2->12X1` (reaction 1 has the empty
product `0`), the product `12 X1` of reaction 2 is stored in row 1 and
row 2 is left zero. -/
theorem reactions_stoch_misaligns_empty_side :
    reactions_stoch ("2X1+X2->X3,X1->0,X3+4X2->12X1".data) =
      some ([[-2, -1, 0], [-1, 0, 0], [0, -4, -1]],
        [[0, 0, 1], [12, 0, 0], [0, 0, 0]]) ∧
    entry [[0, 0, 1], [12, 0, 0], [0, 0, 0]] 1 0 = 12 ∧
    entry [[0, 0, 1], [12, 0, 0], [0, 0, 0]] 2 0 = 0 := by
  refine ⟨by decide, by decide, by decide⟩

/-- **C8** (counterexample to the claim as stated).  The malformed term
`aX1` has a non-numeric coefficient token `a`, yet the parser does not
fail: `isdigit` is false, so the coefficient silently defaults to 1 and
a complete stoichiometry model is returned. -/
theorem parser_accepts_nonnumeric_coefficient :
    reactions_stoch ("aX1->X2".data) = some ([[-1, 0]], [[0, 1]]) := by
  decide

/-- **C8** (amended).  A reaction chunk without the `->` separator is a
parse error: the whole parser fails (`IndexError` on the missing second
piece) and no partial model is returned.  A non-numeric *coefficient*
token, however, is not detected: the term is parsed as if the
coefficient had been omitted, i.e. with coefficient 1. -/
theorem parser_error_reporting
    (s chunk rest1 : List Char) (t p0 p1 : List Char) (n : ℕ)
    (hchunk : chunk ∈ pySplit [','] s)
    (hnosep : pySplit ['-', '>'] chunk = [rest1]) :
    reactions_stoch s = none ∧
    (pySplit ['X'] t = [p0, p1] → pyInt? p0 = none → pyInt? p1 = some n →
      parseTerm t = some (some (1, n))) := by
  constructor
  · have hsplit : splitReaction chunk = none := by
      simp [splitReaction, hnosep]
    rw [reactions_stoch, mapM_eq_none_of_mem splitReaction _ chunk hchunk hsplit]
    rfl
  · intro hsplit hp0 hp1
    simp only [parseTerm, hsplit, hp0, hp1, Option.getD_none]

/-- Witness for `parser_error_reporting`: the input `X1,X2->X1` (first
chunk lacks `->`) and the term `aX1`. -/
theorem parser_error_reporting_witness :
    reactions_stoch ("X1,X2->X1".data) = none ∧
    (pySplit ['X'] ("aX1".data) = [("a".data), ("1".data)] →
      pyInt? ("a".data) = none → pyInt? ("1".data) = some 1 →
      parseTerm ("aX1".data) = some (some (1, 1))) :=
  parser_error_reporting ("X1,X2->X1".data) ("X1".data) ("X1".data)
    ("aX1".data) ("a".data) ("1".data) 1 (by decide) (by decide)
